import Mathlib

/-!
Verification development for the labeleer-cli repository.

The TypeScript sources are shallowly embedded: every pure helper becomes a
Lean function on `String`/`List Char`, the filesystem becomes an explicit map
`Fs := String → Option String`, interactive prompts become oracle arguments
(the value the prompt eventually resolves with), and HTTP calls become an
oracle `HttpResponse` argument.  JavaScript string operations are modelled on
`List Char` so that everything reduces in the kernel.
-/

namespace Labeleer

/-- The filesystem: absolute path to file content (`none` = file absent). -/
def Fs : Type := String → Option String

/-- Overwrite of one path, as performed by `writeFile`. -/
def fsUpdate (fs : Fs) (p : String) (v : Option String) : Fs :=
  fun q => if q = p then v else fs q

/-- `ProjectConfig` from src/types.d.ts. -/
structure ProjectConfig where
  projectId : String
  accessToken : String
  localFilePath : String
deriving DecidableEq, Repr

/-- `PartialConfig` = ProjectConfig minus localFilePath (src/types.d.ts). -/
structure PartialConfig where
  projectId : String
  accessToken : String
deriving DecidableEq, Repr

/-- Oracle for one HTTP round trip: `ok`/`statusText` mirror the `Response`
object, `body` is what `response.text()` yields. -/
structure HttpResponse where
  ok : Bool
  statusText : String
  body : String
deriving DecidableEq, Repr

/-! ## files.ts (the `supportedFileFormats` variant used by publish/retrieve)

```ts
export const supportedFileFormats = ['json', 'yaml', 'xml'] as const;
export function inferFileFormatFromFileName(labelFilePath) {
  return supportedFileFormats.find(ext => labelFilePath.endsWith(`.${ext}`));
}
```
-/

def supportedFileFormats : List String := ["json", "yaml", "xml"]

/-- `path.endsWith(suffix)`, computed on character lists. -/
def strEndsWith (s suffix : String) : Bool :=
  suffix.data.isSuffixOf s.data

def inferFileFormatFromFileName (labelFilePath : String) : Option String :=
  supportedFileFormats.find? fun ext => strEndsWith labelFilePath ("." ++ ext)

/-! ## The credential regexes of `tryReadTokenFromEnv` (src/index.ts)

```ts
const accessTokenExpr = /^LABELEER.*TOKEN=['"]?([a-zA-Z0-9_-]+)['"]$/;
const projectIdExpr   = /^LABELEER.*PROJECT_ID=['"]?([a-zA-Z0-9_-]+)['"]$/;
```

The matcher below is a direct model of these two concrete regexes under
JavaScript semantics: the line is anchored at both ends, `.*` is greedy (the
rightmost occurrence of `TOKEN=`/`PROJECT_ID=` that lets the remainder match
wins) and does not cross line terminators, the opening quote is optional
while the closing quote is mandatory, and the capture is the value group.
-/

/-- Character class `[a-zA-Z0-9_-]`. -/
def isTokenChar (c : Char) : Bool :=
  c.isAlpha || c.isDigit || c = '_' || c = '-'

/-- Character class `['"]`. -/
def isQuote (c : Char) : Bool :=
  c = '\'' || c = '"'

/-- Line terminators that JavaScript `.` does not match. -/
def isLineTerm (c : Char) : Bool :=
  c = '\n' || c = '\r' || c = '\u2028' || c = '\u2029'

/-- Matches `([a-zA-Z0-9_-]+)['"]$`: a non-empty greedy run of token
characters followed by exactly one quote character at end of line; returns
the captured run. -/
def matchCore (u : List Char) : Option (List Char) :=
  match u.dropWhile isTokenChar with
  | [c] =>
    if (u.takeWhile isTokenChar).isEmpty then none
    else if isQuote c then some (u.takeWhile isTokenChar) else none
  | _ => none

/-- Matches `['"]?([a-zA-Z0-9_-]+)['"]$` (the optional opening quote is
greedy; backtracking it can never help because a quote is not a token
character). -/
def matchAfterKey (u : List Char) : Option (List Char) :=
  match u with
  | c :: cs => if isQuote c then matchCore cs else matchCore (c :: cs)
  | [] => none

/-- Matches `KEY['"]?([a-zA-Z0-9_-]+)['"]$` at the head of `u`, where `KEY`
is `TOKEN=` or `PROJECT_ID=`. -/
def matchKeyAt (key : List Char) (u : List Char) : Option (List Char) :=
  if key.isPrefixOf u then matchAfterKey (u.drop key.length) else none

/-- The backtracking search produced by the greedy `.*`: suffix positions of
`r` are tried from the rightmost (longest `.*`) to the leftmost. -/
def scanGreedy (key : List Char) (r : List Char) : Option (List Char) :=
  match r with
  | [] => matchKeyAt key []
  | _ :: cs => (scanGreedy key cs).orElse fun _ => matchKeyAt key r

def tokenKey : List Char := "TOKEN=".data

def projectIdKey : List Char := "PROJECT_ID=".data

/-- `line.match(expr)?.[1]` for the credential expressions: `^LABELEER` then
the greedy scan for the key.  A line containing a line terminator can never
match because every character is consumed by `LABELEER`, `.`, the key, the
quotes or the value class, none of which accepts a terminator. -/
def lineMatch (key : List Char) (line : List Char) : Option (List Char) :=
  if line.any isLineTerm then none
  else if ("LABELEER".data).isPrefixOf line then scanGreedy key (line.drop 8)
  else none

def lineMatchString (key : List Char) (line : String) : Option String :=
  (lineMatch key line.data).map fun cs => String.mk cs

/-- JavaScript `content.split('\n')`. -/
def splitLines : List Char → List (List Char)
  | [] => [[]]
  | c :: cs =>
    match splitLines cs with
    | [] => [[c]]
    | h :: t => if c = '\n' then [] :: h :: t else (c :: h) :: t

/-- All access-token candidates collected by the loop in
`tryReadTokenFromEnv` for a given file content. -/
def collectCandidates (key : List Char) (content : String) : List String :=
  (splitLines content.data).filterMap fun l => (lineMatch key l).map String.mk

/-! ## Environment-file discovery (`tryAcquireProjectConfig`)

```ts
const envFileExpression = /\.env(\..*)?$/;
const dotEnvCandidates = files.filter(fileName => envFileExpression.test(fileName));
```

The regex is not anchored at the start, so `test` succeeds as soon as some
position of the file name starts `.env` and the remainder is either empty or
a `.`-led run free of line terminators (JavaScript `.`). -/

def dotEnvChars : List Char := ['.', 'e', 'n', 'v']

/-- One attempt of `\.env(\..*)?$` at the present position. -/
def envMatchHere (t : List Char) : Bool :=
  dotEnvChars.isPrefixOf t &&
    (match t.drop 4 with
     | [] => true
     | c :: rest => c = '.' && rest.all fun d => !isLineTerm d)

/-- `envFileExpression.test(fileName)`: try every position. -/
def envScan : List Char → Bool
  | [] => false
  | c :: cs => envMatchHere (c :: cs) || envScan cs

def envFileTest (fileName : String) : Bool :=
  envScan fileName.data

/-- The shape the spec claims for env-file candidates: exactly `.env` or
`.env.<suffix>`.  Stated from the spec's words, for comparison with
`envFileTest` (which embeds the source regex). -/
def specEnvNameForm (fileName : String) : Bool :=
  fileName = ".env" || (".env.".data).isPrefixOf fileName.data

/-! ## The Create-Label name validator (`processLabelName`)

```ts
function processLabelName(label: string): boolean {
  return label.replace(/\s+/, '.').replace(/[^a-zA-Z0-9._-]+/g, '-') === label;
}
```

The first `replace` has no `g` flag: only the leftmost whitespace run is
replaced by one `.`; the second replaces every maximal run of characters
outside `[a-zA-Z0-9._-]` by one `-`. -/

/-- JavaScript `\s` (the WhiteSpace and LineTerminator productions). -/
def isJsWs (c : Char) : Bool :=
  c = '\t' || c = '\n' || c = '\x0b' || c = '\x0c' || c = '\r' || c = ' ' ||
  c = '\u00a0' || c = '\u1680' || ('\u2000' ≤ c && c ≤ '\u200a') ||
  c = '\u2028' || c = '\u2029' || c = '\u202f' || c = '\u205f' ||
  c = '\u3000' || c = '\ufeff'

/-- Character class `[a-zA-Z0-9._-]`. -/
def isAllowedLabelChar (c : Char) : Bool :=
  c.isAlpha || c.isDigit || c = '.' || c = '_' || c = '-'

/-- `label.replace(/\s+/, '.')`: the leftmost maximal whitespace run becomes
a single `.`. -/
def replaceFirstWsRun : List Char → List Char
  | [] => []
  | c :: cs =>
    if isJsWs c then '.' :: cs.dropWhile isJsWs
    else c :: replaceFirstWsRun cs

/-- `label.replace(/[^a-zA-Z0-9._-]+/g, '-')` as a left-to-right scan; the
flag records whether we are inside a disallowed run already replaced. -/
def replaceDisallowedGo (inRun : Bool) : List Char → List Char
  | [] => []
  | c :: cs =>
    if isAllowedLabelChar c then c :: replaceDisallowedGo false cs
    else if inRun then replaceDisallowedGo true cs
    else '-' :: replaceDisallowedGo true cs

def processLabelName (label : String) : Bool :=
  replaceDisallowedGo false (replaceFirstWsRun label.data) == label.data

/-- The spec's stated invariant for accepted names: `^[a-zA-Z0-9._-]+$`
(non-empty).  Stated from the spec's words, for comparison with
`processLabelName`. -/
def specLabelNamePattern (label : String) : Bool :=
  !label.data.isEmpty && label.data.all isAllowedLabelChar

/-! ## The local label repository (`LabelFile`, `tryCreateLabel`)

`LabelFile` (src/types.d.ts) is a JSON object mapping label names to
`{ translations: { locale: string } }`.  JavaScript objects are modelled as
association lists in insertion order with unique keys; `o[k] = v` keeps the
position of an existing key and appends a missing one. -/

/-- One label's translations: locale to translated string. -/
def Translations : Type := List (String × String)

def LabelFile : Type := List (String × Translations)

instance : DecidableEq Translations := by
  unfold Translations; infer_instance

instance : DecidableEq LabelFile := by
  unfold LabelFile; infer_instance

/-- JavaScript property assignment `o[k] = v` on an association-list
object. -/
def setKey {α : Type} (m : List (String × α)) (k : String) (v : α) :
    List (String × α) :=
  match m with
  | [] => [(k, v)]
  | (k2, v2) :: rest =>
    if k2 = k then (k, v) :: rest else (k2, v2) :: setKey rest k v

/-- JavaScript property read `o[k]` on an association-list object. -/
def lookupKey {α : Type} (m : List (String × α)) (k : String) : Option α :=
  match m with
  | [] => none
  | (k2, v2) :: rest => if k2 = k then some v2 else lookupKey rest k

/-- The merge-insert of `tryCreateLabel`:

```ts
labelFile[labelName] = labelFile[labelName] ?? { translations: {} };
for (const [locale, translation] of localeTranslations) {
  labelFile[labelName].translations[locale] = translation;
}
```
-/
def upsert (file : LabelFile) (labelName : String) (translations : Translations) :
    LabelFile :=
  let base := (lookupKey file labelName).getD []
  setKey file labelName
    (translations.foldl (fun acc p => setKey acc p.1 p.2) base)

/-! ### `JSON.stringify(labelFile, null, 2)` and `JSON.parse`

The serializer below reproduces the builtin `JSON.stringify` on the
`LabelFile` shape (2-space indentation, `": "` separators, string escaping
of `"`, `\` and control characters).  The parser models `JSON.parse`
followed by the `as LabelFile` shape assumption of `parseLabelFile`; it
accepts the serializer's output language (`JSON.parse` accepts more JSON
spellings, which the round-trip theorems never exercise). -/

/-- Lower-case hex digit. -/
def hexDigit (n : Nat) : Char :=
  if n < 10 then Char.ofNat (48 + n) else Char.ofNat (87 + n)

/-- Value of a hex digit character. -/
def hexVal (c : Char) : Option Nat :=
  if '0' ≤ c ∧ c ≤ '9' then some (c.toNat - 48)
  else if 'a' ≤ c ∧ c ≤ 'f' then some (c.toNat - 87)
  else if 'A' ≤ c ∧ c ≤ 'F' then some (c.toNat - 55)
  else none

/-- `JSON.stringify`'s escaping of one string character. -/
def escChar (c : Char) : List Char :=
  if c = '"' then ['\\', '"']
  else if c = '\\' then ['\\', '\\']
  else if c = '\x08' then ['\\', 'b']
  else if c = '\t' then ['\\', 't']
  else if c = '\n' then ['\\', 'n']
  else if c = '\x0c' then ['\\', 'f']
  else if c = '\r' then ['\\', 'r']
  else if c.toNat < 32 then
    ['\\', 'u', '0', '0', hexDigit (c.toNat / 16), hexDigit (c.toNat % 16)]
  else [c]

def escapeChars (s : List Char) : List Char :=
  s.flatMap escChar

/-- A JSON string literal, quotes included. -/
def qstr (s : String) : List Char :=
  '"' :: (escapeChars s.data ++ ['"'])

/-- `2 * level` spaces of indentation. -/
def pad (level : Nat) : List Char :=
  List.replicate (2 * level) ' '

/-- Members of an object of strings, one `"k": "v"` line each. -/
def serStrMembers (level : Nat) : List (String × String) → List Char
  | [] => []
  | [(k, v)] => pad level ++ qstr k ++ ':' :: ' ' :: qstr v
  | (k, v) :: rest =>
    pad level ++ qstr k ++ ':' :: ' ' :: qstr v ++ ',' :: '\n' ::
      serStrMembers level rest

/-- An object of strings at the given depth. -/
def serStrObj (level : Nat) (m : List (String × String)) : List Char :=
  match m with
  | [] => ['{', '}']
  | _ => '{' :: '\n' :: (serStrMembers (level + 1) m ++ '\n' :: pad level ++ ['}'])

/-- A label value `{ "translations": { ... } }` at the given depth. -/
def serLabelValue (level : Nat) (ts : Translations) : List Char :=
  '{' :: '\n' :: (pad (level + 1) ++ qstr "translations" ++ ':' :: ' ' ::
    serStrObj (level + 1) ts ++ '\n' :: pad level ++ ['}'])

def serLabelMembers (level : Nat) : LabelFile → List Char
  | [] => []
  | [(k, ts)] => pad level ++ qstr k ++ ':' :: ' ' :: serLabelValue level ts
  | (k, ts) :: rest =>
    pad level ++ qstr k ++ ':' :: ' ' :: serLabelValue level ts ++ ',' :: '\n' ::
      serLabelMembers level rest

def serLabelFile (f : LabelFile) : List Char :=
  match f with
  | [] => ['{', '}']
  | _ => '{' :: '\n' :: (serLabelMembers 1 f ++ '\n' :: ['}'])

/-- `JSON.stringify(labelFile, null, 2)`. -/
def stringifyLabelFile (f : LabelFile) : String :=
  String.mk (serLabelFile f)

/-- Insignificant JSON whitespace. -/
def isJsonWs (c : Char) : Bool :=
  c = ' ' || c = '\n' || c = '\t' || c = '\r'

def skipWs (s : List Char) : List Char :=
  s.dropWhile isJsonWs

/-- Decode the character named by a one-letter escape. -/
def decodeEsc (e : Char) : Option Char :=
  if e = '"' then some '"'
  else if e = '\\' then some '\\'
  else if e = '/' then some '/'
  else if e = 'b' then some '\x08'
  else if e = 't' then some '\t'
  else if e = 'n' then some '\n'
  else if e = 'f' then some '\x0c'
  else if e = 'r' then some '\r'
  else none

/-- Expect one concrete character at the head of the input. -/
def expectChar (c : Char) : List Char → Option (List Char)
  | [] => none
  | d :: r => if d = c then some r else none

/-- After a member, a `,` announces another member and a `}` closes the
object. -/
def sepStep : List Char → Option (Bool × List Char)
  | [] => none
  | d :: r =>
    if d = ',' then some (true, r) else if d = '}' then some (false, r) else none

/-- Body of a string literal after the opening quote: unescape until the
closing quote, returning content and remainder.  All parsers carry a `Nat`
fuel so that recursion is structural; `parseLabelFile` instantiates the fuel
with a bound large enough for any input. -/
def parseStrBody : Nat → List Char → Option (List Char × List Char)
  | 0, _ => none
  | _ + 1, [] => none
  | fuel + 1, c :: r =>
    if c = '"' then some ([], r)
    else if c = '\\' then
      match r with
      | [] => none
      | e :: r2 =>
        if e = 'u' then
          match r2 with
          | a :: b :: c2 :: d :: r6 =>
            (hexVal a).bind fun va =>
              (hexVal b).bind fun vb =>
                (hexVal c2).bind fun vc =>
                  (hexVal d).bind fun vd =>
                    (parseStrBody fuel r6).bind fun p =>
                      some (Char.ofNat (va * 4096 + vb * 256 + vc * 16 + vd) ::
                        p.1, p.2)
          | _ => none
        else
          (decodeEsc e).bind fun decoded =>
            (parseStrBody fuel r2).bind fun p => some (decoded :: p.1, p.2)
    else (parseStrBody fuel r).bind fun p => some (c :: p.1, p.2)

/-- A quoted string literal. -/
def parseQStr (fuel : Nat) (s : List Char) : Option (String × List Char) :=
  (expectChar '"' s).bind fun r =>
    (parseStrBody fuel r).bind fun p => some (String.mk p.1, p.2)

/-- Members `"k": "v" (, ...)* }` of a string object. -/
def parseStrMembers : Nat → List Char → Option (List (String × String) × List Char)
  | 0, _ => none
  | fuel + 1, s =>
    (parseQStr fuel s).bind fun kr =>
      (expectChar ':' (skipWs kr.2)).bind fun r2 =>
        (parseQStr fuel (skipWs r2)).bind fun vr =>
          (sepStep (skipWs vr.2)).bind fun mr =>
            if mr.1 then
              (parseStrMembers fuel (skipWs mr.2)).bind fun rr =>
                some ((kr.1, vr.1) :: rr.1, rr.2)
            else some ([(kr.1, vr.1)], mr.2)

/-- An object of strings. -/
def parseStrObj (fuel : Nat) (s : List Char) :
    Option (List (String × String) × List Char) :=
  (expectChar '{' s).bind fun r =>
    match expectChar '}' (skipWs r) with
    | some rem => some ([], rem)
    | none => parseStrMembers fuel (skipWs r)

/-- A label value `{ "translations": { ... } }`; the key check models the
`as LabelFile` shape assumption. -/
def parseLabelValue (fuel : Nat) (s : List Char) :
    Option (Translations × List Char) :=
  (expectChar '{' s).bind fun r =>
    (parseQStr fuel (skipWs r)).bind fun kr =>
      if kr.1 = "translations" then
        (expectChar ':' (skipWs kr.2)).bind fun r2 =>
          (parseStrObj fuel (skipWs r2)).bind fun tr =>
            (expectChar '}' (skipWs tr.2)).bind fun rem => some (tr.1, rem)
      else none

def parseLabelMembers : Nat → List Char → Option (LabelFile × List Char)
  | 0, _ => none
  | fuel + 1, s =>
    (parseQStr fuel s).bind fun kr =>
      (expectChar ':' (skipWs kr.2)).bind fun r2 =>
        (parseLabelValue fuel (skipWs r2)).bind fun tr =>
          (sepStep (skipWs tr.2)).bind fun mr =>
            if mr.1 then
              (parseLabelMembers fuel (skipWs mr.2)).bind fun rr =>
                some ((kr.1, tr.1) :: rr.1, rr.2)
            else some ([(kr.1, tr.1)], mr.2)

def parseLabelTop (fuel : Nat) (s : List Char) : Option (LabelFile × List Char) :=
  (expectChar '{' (skipWs s)).bind fun r =>
    match expectChar '}' (skipWs r) with
    | some rem => some ([], rem)
    | none => parseLabelMembers fuel (skipWs r)

/-- `parseLabelFile` = `JSON.parse(content) as LabelFile` (restricted to the
serializer's output language; `JSON.parse` demands that only whitespace
follow the top-level value). -/
def parseLabelFile (content : String) : Option LabelFile :=
  match parseLabelTop (content.length + 1) content.data with
  | some (f, rem) => if skipWs rem = [] then some f else none
  | none => none

/-! ## `tryCreateLabel` (create-labels module)

Prompts are oracles: `locales` is the decoded locale response (`none` models
a failed/undecodable request), `values` are the strings the user submitted,
one per locale in order (the prompt layer marks reference locales
`required`, so in a real run those entries are non-empty; the model does not
restrict them).  `nameInput` is the name the prompt eventually resolves
with, i.e. the first input accepted by `processLabelName`. -/

structure LocaleEntry where
  locale : String
  isReference : Bool
deriving DecidableEq, Repr

structure CreateLabelResult where
  exited : Option Nat
  /-- The label file written back, if the flow reached the write. -/
  written : Option LabelFile
  log : List String
  fs : Fs

def msgNoLanguages : String :=
  "No languages found in the project. Please add languages before creating labels."

def msgNoTranslations : String :=
  "No translations provided. Label creation aborted."

def tryCreateLabel (fs : Fs) (cfg : ProjectConfig)
    (locales : Option (List LocaleEntry)) (nameInput : String)
    (values : List String) : CreateLabelResult :=
  match locales with
  | none => ⟨some 1, none, ["Failed to load languages from project."], fs⟩
  | some locs =>
    if locs.isEmpty then ⟨none, none, [msgNoLanguages], fs⟩
    else
      let localeTranslations : Translations :=
        ((locs.map LocaleEntry.locale).zip values).foldl
          (fun acc p => setKey acc p.1 p.2) []
      if localeTranslations.isEmpty then ⟨none, none, [msgNoTranslations], fs⟩
      else
        match fs cfg.localFilePath with
        | none => ⟨some 1, none, ["An unexpected error occurred:"], fs⟩
        | some currentContent =>
          match parseLabelFile currentContent with
          | none => ⟨some 1, none, ["An unexpected error occurred:"], fs⟩
          | some labelFile =>
            let updated := upsert labelFile nameInput localeTranslations
            ⟨none, some updated, [],
              fsUpdate fs cfg.localFilePath (some (stringifyLabelFile updated))⟩

/-! ## `tryPublishLocalLabels` (src/publish-labels.ts) -/

structure PostRequest where
  url : String
  body : String
deriving DecidableEq, Repr

structure PublishResult where
  log : List String
  exited : Option Nat
  requests : List PostRequest
  fs : Fs

def msgUnableRead : String :=
  "Unable to read local file content. Aborting."

def msgUnableInfer : String :=
  "Unable to infer file format from label file name. Sync aborted."

def msgUnsupportedFormat : String :=
  "Unsupported format. Currently, only JSON is supported for remote synchronization."

def msgSyncFailed : String :=
  "Something went wrong with the synchronization: "

def msgSyncDone : String :=
  "Local labels have been synchronized with remote project"

def tryPublishLocalLabels (fs : Fs) (cfg : ProjectConfig) (resp : HttpResponse) :
    PublishResult :=
  match fs cfg.localFilePath with
  | none => ⟨["An unexpected error occurred:"], some 1, [], fs⟩
  | some localFileContent =>
    let fileType := inferFileFormatFromFileName cfg.localFilePath
    if localFileContent = "" then ⟨[msgUnableRead], none, [], fs⟩
    else
      match fileType with
      | none => ⟨[msgUnableInfer], none, [], fs⟩
      | some fmt =>
        if fmt ≠ "json" then ⟨[msgUnsupportedFormat], none, [], fs⟩
        else
          let req : PostRequest :=
            ⟨"https://labeleer.com/api/project/" ++ cfg.projectId ++ "/translations",
              "\x7b\"entries\":" ++ localFileContent ++ "\x7d"⟩
          if resp.ok then ⟨[msgSyncDone], none, [req], fs⟩
          else ⟨[msgSyncFailed ++ resp.statusText, resp.body], none, [req], fs⟩

/-! ## `tryRetrieveLabels` (retrieve-labels module)

`formatChoiceIdx` is the oracle for the `select` fallback of
`tryInferOrInquireFormatFromFileName`; `select` always resolves with one of
the offered `supportedFileFormats`. -/

structure FetchResult where
  log : List String
  exited : Option Nat
  fs : Fs

def msgNoFormat : String :=
  "No label file format selected. Unable to proceed."

def msgFetchFailed : String :=
  "Failed to fetch labels: "

/-- The `select` prompt: resolves with one of the offered choices. -/
def pickChoice {α : Type} (n : Nat) (l : List α) : Option α :=
  l[n % l.length]?

def tryInferOrInquireFormatFromFileName (labelFilePath : String)
    (formatChoiceIdx : Nat) : Option String :=
  match inferFileFormatFromFileName labelFilePath with
  | some f => some f
  | none => pickChoice formatChoiceIdx supportedFileFormats

def tryRetrieveLabels (fs : Fs) (cfg : ProjectConfig) (formatChoiceIdx : Nat)
    (resp : HttpResponse) : FetchResult :=
  match tryInferOrInquireFormatFromFileName cfg.localFilePath formatChoiceIdx with
  | none => ⟨[msgNoFormat], some 1, fs⟩
  | some _ =>
    if resp.ok then
      ⟨["Labels have been written to " ++ cfg.localFilePath], none,
        fsUpdate fs cfg.localFilePath (some resp.body)⟩
    else ⟨[msgFetchFailed ++ resp.statusText], some 1, fs⟩

/-! ## Label File Resolver (src/label-file-localization.ts) -/

/-- `SupportedFormat` of the `@labeleer/models` package, as enumerated by the
`getFileNameForFormat` switch in src/label-file-localization.ts. -/
inductive SupportedFormat where
  | androidStrings
  | appleStrings
  | json
  | po
  | ts
  | xliff
  | yaml
deriving DecidableEq, Repr

/-- Modelled from the spec: `getFileExtensionFromFormat` of the external
`@labeleer/models` package is not in this repository.  The spec's Format
Registry (§4.2, §3) assigns each format its canonical/primary extension,
matching the display names of `getFileNameForFormat`. -/
def getFileExtensionFromFormat : SupportedFormat → String
  | .androidStrings => "xml"
  | .appleStrings => "strings"
  | .json => "json"
  | .po => "po"
  | .ts => "ts"
  | .xliff => "xliff"
  | .yaml => "yaml"

inductive LabelFileResult where
  | exited (code : Nat) (fs : Fs)
  | ok (path : String) (isNew : Bool) (fs : Fs)

/-- The creation offer taken when no usable label file candidate exists. -/
def labelFileFallback (shouldCreate : Bool) (fmt : SupportedFormat)
    (cwd : String) (fs : Fs) : LabelFileResult :=
  if !shouldCreate then .exited 0 fs
  else
    .ok (cwd ++ "/labels." ++ getFileExtensionFromFormat fmt) true
      (fsUpdate fs (cwd ++ "/labels." ++ getFileExtensionFromFormat fmt)
        (some ""))

/-- `labelFilePathWithFallback`.  `initialPath` is the candidate chosen by
`tryAcquireLabelFile` (`none` = zero candidates; the source tests JavaScript
truthiness, so an empty-string path also falls through to the creation
offer).  `shouldCreate` and `fmt` are the two prompt oracles. -/
def labelFilePathWithFallback (initialPath : Option String)
    (shouldCreate : Bool) (fmt : SupportedFormat) (cwd : String) (fs : Fs) :
    LabelFileResult :=
  match initialPath with
  | some p =>
    if p ≠ "" then .ok p false fs
    else labelFileFallback shouldCreate fmt cwd fs
  | none => labelFileFallback shouldCreate fmt cwd fs

/-- `tryAcquireLabelFile`: `labelCandidates` are the glob results,
`choiceIdx` the selection oracle for the many-candidates prompt. -/
def tryAcquireLabelFile (labelCandidates : List String) (choiceIdx : Nat) :
    Option String :=
  match labelCandidates with
  | [] => none
  | [f] => some f
  | fs => pickChoice choiceIdx fs

/-! ## Credential Resolver and `main` (project-settings module, entry point) -/

/-- Where the `PartialConfig` of a run came from. -/
inductive CredSource where
  | fromEnvFile
  | fromPrompt
deriving DecidableEq, Repr

/-- `tryReadTokenFromEnv`: collect both candidate families; `undefined` when
either family is empty; both singletons are used directly; otherwise the
user selects one of each. -/
def tryReadTokenFromEnv (content : String) (tokenChoiceIdx idChoiceIdx : Nat) :
    Option PartialConfig :=
  match collectCandidates tokenKey content,
    collectCandidates projectIdKey content with
  | [], _ => none
  | _, [] => none
  | [t], [i] => some ⟨i, t⟩
  | ts, is => do
    let t ← pickChoice tokenChoiceIdx ts
    let i ← pickChoice idChoiceIdx is
    some ⟨i, t⟩

/-- `tryDeduceEnvFilePath`: a single candidate is used silently, several go
through a `select` prompt. -/
def tryDeduceEnvFilePath (candidates : List String) (choiceIdx : Nat) :
    Option String :=
  match candidates with
  | [c] => some c
  | cs => pickChoice choiceIdx cs

/-- All prompt/filesystem oracles consumed by one run of `main`. -/
structure MainInputs where
  cwd : String
  /-- `readdir(process.cwd())`. -/
  cwdListing : List String
  /-- `readFile` of the chosen env file. -/
  fileContents : String → String
  envFileChoiceIdx : Nat
  tokenChoiceIdx : Nat
  idChoiceIdx : Nat
  /-- The masked access-token fallback prompt (`password`). -/
  fallbackToken : String
  /-- The project-ID fallback prompt (`input`). -/
  fallbackId : String
  /-- Glob results of `tryAcquireLabelFile`. -/
  labelCandidates : List String
  labelFileChoiceIdx : Nat
  shouldCreateLabelFile : Bool
  createFormat : SupportedFormat

/-- `inquireProjectConfig`: both prompts always resolve, empty answers
included. -/
def inquireProjectConfig (I : MainInputs) : PartialConfig :=
  ⟨I.fallbackId, I.fallbackToken⟩

/-- `tryAcquireProjectConfig` with the provenance of the result. -/
def tryAcquireProjectConfig (I : MainInputs) : PartialConfig × CredSource :=
  match I.cwdListing.filter envFileTest with
  | [] => (inquireProjectConfig I, .fromPrompt)
  | c :: cs =>
    match tryDeduceEnvFilePath (c :: cs) I.envFileChoiceIdx with
    | none => (inquireProjectConfig I, .fromPrompt)
    | some dotEnvPath =>
      if dotEnvPath = "" then (inquireProjectConfig I, .fromPrompt)
      else
        match tryReadTokenFromEnv (I.fileContents dotEnvPath)
            I.tokenChoiceIdx I.idChoiceIdx with
        | none => (inquireProjectConfig I, .fromPrompt)
        | some projectFromEnv => (projectFromEnv, .fromEnvFile)

/-- How far `main` gets before an action runs: it either exits during
resolution or reaches the action-selection prompt (the Action Dispatcher)
with an assembled `ProjectConfig`. -/
inductive MainOutcome where
  | exited (code : Nat)
  | dispatched (config : ProjectConfig) (source : CredSource) (isNew : Bool)
deriving DecidableEq, Repr

/-- The resolution phase of `main` (entry point), up to the Action
Dispatcher. -/
def mainResolve (I : MainInputs) (fs : Fs) : MainOutcome :=
  match labelFilePathWithFallback
      (tryAcquireLabelFile I.labelCandidates I.labelFileChoiceIdx)
      I.shouldCreateLabelFile I.createFormat I.cwd fs with
  | .exited code _ => .exited code
  | .ok path isNew _ =>
    .dispatched
      ⟨(tryAcquireProjectConfig I).1.projectId,
        (tryAcquireProjectConfig I).1.accessToken, path⟩
      (tryAcquireProjectConfig I).2 isNew

/-- The filesystem and config of the create-label runs below: the local
label file `/proj/labels.json` holds the empty JSON object. -/
def c2Fs : Fs :=
  fun p => if p = "/proj/labels.json" then some "\x7b\x7d" else none

def c2Cfg : ProjectConfig :=
  ⟨"p1", "tok", "/proj/labels.json"⟩

/-- The YAML publish run used to witness C4. -/
def c4Fs : Fs :=
  fun p => if p = "/proj/labels.yaml" then some "greeting: Hi" else none

def c4Cfg : ProjectConfig :=
  ⟨"p1", "tok", "/proj/labels.yaml"⟩

/-- Fuel needed to parse back a serialized string object. -/
def memberWeight : List (String × String) → Nat
  | [] => 0
  | (k, v) :: rest => 1 + k.data.length + v.data.length + memberWeight rest

/-- Fuel needed to parse back a serialized label file. -/
def labelWeight : LabelFile → Nat
  | [] => 0
  | (k, ts) :: rest => 14 + k.data.length + memberWeight ts + labelWeight rest

/-- A run whose credentials come from a well-formed `.env` file. -/
def envCredRun : MainInputs :=
  ⟨"/w", [".env"],
    fun _ => "LABELEER_ACCESS_TOKEN=\"abc\"\nLABELEER_PROJECT_ID=\"p1\"",
    0, 0, 0, "", "", ["/w/labels.json"], 0, false, .json⟩

/-! ## Claim theorems -/

/-- A run with no env files, empty answers to both fallback credential
prompts, and one discovered label file. -/
def emptyCredRun : MainInputs :=
  ⟨"/w", [], fun _ => "", 0, 0, 0, "", "", ["/w/labels.json"], 0, false, .json⟩

/-- C1 (counterexample): the Action Dispatcher is reachable with an
assembled config whose `projectId` and `accessToken` are both the empty
string — the interactive credential fallback accepts empty answers and
`main` only tests the partial config for `undefined`, not for empty
fields. -/
theorem c1_counterexample :
    mainResolve emptyCredRun (fun _ => none) =
      .dispatched ⟨"", "", "/w/labels.json"⟩ .fromPrompt false := by
  decide

/-- C2 (code bug): creating label `greeting` over `{}` with reference locale
`en` = `Hi` and optional `fr` left blank writes `fr` as the empty string
instead of omitting it — `tryCreateLabel` stores every prompted value in the
map unconditionally.  For the same reason the all-blank flow (two optional
locales, both left blank) still writes the label instead of aborting: the
`localeTranslations.size` guard can never be zero once locales exist. -/
theorem c2_blank_translations_written :
    (tryCreateLabel c2Fs c2Cfg (some [⟨"en", true⟩, ⟨"fr", false⟩])
        "greeting" ["Hi", ""]).written =
      some [("greeting", [("en", "Hi"), ("fr", "")])] ∧
    (tryCreateLabel c2Fs c2Cfg (some [⟨"de", false⟩, ⟨"fr", false⟩])
        "greeting" ["", ""]).written =
      some [("greeting", [("de", ""), ("fr", "")])] := by
  constructor <;> decide

/-- C3 (code bug): the credential expressions demand a closing quote (the
opening one is optional), so the unquoted POSIX lines
`LABELEER_ACCESS_TOKEN=abc123` / `LABELEER_PROJECT_ID=p42` yield no
candidate at all, while their quoted forms are collected. -/
theorem c3_unquoted_env_line_not_collected :
    collectCandidates tokenKey "LABELEER_ACCESS_TOKEN=abc123" = [] ∧
    collectCandidates tokenKey "LABELEER_ACCESS_TOKEN=\"abc123\"" = ["abc123"] ∧
    collectCandidates projectIdKey "LABELEER_PROJECT_ID=p42" = [] ∧
    collectCandidates projectIdKey "LABELEER_PROJECT_ID=\"p42\"" = ["p42"] := by
  refine ⟨by decide, by decide, by decide, by decide⟩

/-- C4: publishing a label file whose inferred format is not JSON is refused
with the unsupported-format message, does not exit the process, performs no
network request, and leaves the filesystem untouched. -/
theorem c4_publish_non_json_refused (fs : Fs) (cfg : ProjectConfig)
    (resp : HttpResponse) (content : String) (fmt : String)
    (hread : fs cfg.localFilePath = some content) (hne : content ≠ "")
    (hfmt : inferFileFormatFromFileName cfg.localFilePath = some fmt)
    (hnj : fmt ≠ "json") :
    tryPublishLocalLabels fs cfg resp =
      ⟨[msgUnsupportedFormat], none, [], fs⟩ := by
  unfold tryPublishLocalLabels
  rw [hread]
  simp [hfmt, hne, hnj]

/-- Witness for C4: a concrete YAML-backed publish run is refused with the
unsupported-format message, no exit, no request, filesystem unchanged. -/
theorem c4_publish_non_json_refused_witness :
    tryPublishLocalLabels c4Fs c4Cfg ⟨true, "OK", ""⟩ =
      ⟨[msgUnsupportedFormat], none, [], c4Fs⟩ :=
  c4_publish_non_json_refused c4Fs c4Cfg ⟨true, "OK", ""⟩ "greeting: Hi" "yaml"
    (by decide) (by decide) (by decide) (by decide)

/-- C10: `tryPublishLocalLabels` never writes to the filesystem — whatever
the local content, inferred format or HTTP outcome, the file map after the
action is the file map before it. -/
theorem c10_publish_frame (fs : Fs) (cfg : ProjectConfig) (resp : HttpResponse) :
    (tryPublishLocalLabels fs cfg resp).fs = fs := by
  unfold tryPublishLocalLabels
  cases fs cfg.localFilePath
  · rfl
  · dsimp only
    repeat' split
    all_goals rfl

/-- The format prompt of the fetch flow always resolves with one of the
offered formats, so `tryInferOrInquireFormatFromFileName` never yields
`none`. -/
theorem tryInferOrInquireFormat_isSome (p : String) (n : Nat) :
    ∃ f, tryInferOrInquireFormatFromFileName p n = some f := by
  unfold tryInferOrInquireFormatFromFileName
  cases h : inferFileFormatFromFileName p
  · have hlt : n % supportedFileFormats.length < supportedFileFormats.length := by
      simp [supportedFileFormats]; omega
    exact ⟨supportedFileFormats[n % supportedFileFormats.length],
      by simp [pickChoice, List.getElem?_eq_getElem hlt]⟩
  · exact ⟨_, rfl⟩

/-- C5: a fetch whose export request returns a non-success status exits with
code 1 after surfacing the HTTP status text, and a successful fetch
overwrites the local label file verbatim with the response body (a full
overwrite of exactly that path). -/
theorem c5_retrieve_outcomes (fs : Fs) (cfg : ProjectConfig)
    (formatChoiceIdx : Nat) (st body : String) :
    tryRetrieveLabels fs cfg formatChoiceIdx ⟨false, st, body⟩ =
      ⟨[msgFetchFailed ++ st], some 1, fs⟩ ∧
    tryRetrieveLabels fs cfg formatChoiceIdx ⟨true, st, body⟩ =
      ⟨["Labels have been written to " ++ cfg.localFilePath], none,
        fsUpdate fs cfg.localFilePath (some body)⟩ := by
  obtain ⟨f, hf⟩ := tryInferOrInquireFormat_isSome cfg.localFilePath formatChoiceIdx
  unfold tryRetrieveLabels
  rw [hf]
  exact ⟨rfl, rfl⟩

/-- C6: with zero label-file candidates, declining creation terminates the
program with exit status 0 and an unchanged filesystem, while accepting and
picking a format creates exactly one empty file at
`<cwd>/labels.<primary extension>` and returns that path with
`isNew = true`. -/
theorem c6_label_file_fallback (fs : Fs) (cwd : String) (fmt : SupportedFormat) :
    labelFilePathWithFallback none false fmt cwd fs = .exited 0 fs ∧
    labelFilePathWithFallback none true fmt cwd fs =
      .ok (cwd ++ "/labels." ++ getFileExtensionFromFormat fmt) true
        (fsUpdate fs (cwd ++ "/labels." ++ getFileExtensionFromFormat fmt)
          (some "")) :=
  ⟨rfl, rfl⟩

/-- Numeric view of the `[a-zA-Z0-9._-]` class. -/
theorem allowed_char_toNat (c : Char) (h : isAllowedLabelChar c = true) :
    (65 ≤ c.toNat ∧ c.toNat ≤ 90) ∨ (97 ≤ c.toNat ∧ c.toNat ≤ 122) ∨
    (48 ≤ c.toNat ∧ c.toNat ≤ 57) ∨ c.toNat = 46 ∨ c.toNat = 95 ∨
    c.toNat = 45 := by
  simp only [isAllowedLabelChar, Char.isAlpha, Char.isUpper, Char.isLower,
    Char.isDigit, Bool.or_eq_true, Bool.and_eq_true, decide_eq_true_eq] at h
  rcases h with ((((ha | hd) | hdot) | hus) | hyph)
  · rcases ha with ⟨h1, h2⟩ | ⟨h1, h2⟩
    · exact Or.inl ⟨h1, h2⟩
    · exact Or.inr (Or.inl ⟨h1, h2⟩)
  · exact Or.inr (Or.inr (Or.inl ⟨hd.1, hd.2⟩))
  · subst hdot; decide
  · subst hus; decide
  · subst hyph; decide

/-- Numeric view of the JavaScript whitespace class. -/
theorem ws_char_toNat (c : Char) (h : isJsWs c = true) :
    c.toNat = 9 ∨ c.toNat = 10 ∨ c.toNat = 11 ∨ c.toNat = 12 ∨
    c.toNat = 13 ∨ c.toNat = 32 ∨ c.toNat = 160 ∨ c.toNat = 5760 ∨
    (8192 ≤ c.toNat ∧ c.toNat ≤ 8202) ∨ c.toNat = 8232 ∨ c.toNat = 8233 ∨
    c.toNat = 8239 ∨ c.toNat = 8287 ∨ c.toNat = 12288 ∨ c.toNat = 65279 := by
  simp only [isJsWs, Bool.or_eq_true, Bool.and_eq_true, decide_eq_true_eq] at h
  rcases h with
    ((((((((((((((h1|h1)|h1)|h1)|h1)|h1)|h1)|h1)|⟨hl,hr⟩)|h1)|h1)|h1)|h1)|h1)|h1)
  all_goals try (subst h1; decide)
  exact Or.inr (Or.inr (Or.inr (Or.inr (Or.inr (Or.inr (Or.inr (Or.inr
    (Or.inl ⟨Char.le_def.mp hl, Char.le_def.mp hr⟩))))))))

/-- An accepted label character is never JavaScript whitespace. -/
theorem allowed_char_not_ws (c : Char) (h : isAllowedLabelChar c = true) :
    isJsWs c = false := by
  by_contra hne
  have hw : isJsWs c = true := by revert hne; cases isJsWs c <;> simp
  have h1 := allowed_char_toNat c h
  have h2 := ws_char_toNat c hw
  omega

/-- The first-whitespace-run replacement is the identity on whitespace-free
strings. -/
theorem replaceFirstWsRun_of_no_ws (l : List Char)
    (h : ∀ c ∈ l, isJsWs c = false) : replaceFirstWsRun l = l := by
  induction l with
  | nil => rfl
  | cons c cs ih =>
    have hc := h c (List.mem_cons_self c cs)
    simp only [replaceFirstWsRun, hc]
    simp only [Bool.false_eq_true, if_false]
    rw [ih fun d hd => h d (List.mem_cons_of_mem c hd)]

/-- Every character of the disallowed-run replacement's output is in the
allowed class. -/
theorem replaceDisallowedGo_all_allowed (b : Bool) (l : List Char) :
    (replaceDisallowedGo b l).all isAllowedLabelChar = true := by
  induction l generalizing b with
  | nil => rfl
  | cons c cs ih =>
    simp only [replaceDisallowedGo]
    by_cases hc : isAllowedLabelChar c = true
    · simp [hc, ih false]
    · simp only [hc, if_false]
      cases b
      · simp [ih true]
        decide
      · simp [ih true]

/-- The disallowed-run replacement is the identity on fully-allowed
strings. -/
theorem replaceDisallowedGo_of_allowed (b : Bool) (l : List Char)
    (h : l.all isAllowedLabelChar = true) : replaceDisallowedGo b l = l := by
  induction l generalizing b with
  | nil => rfl
  | cons c cs ih =>
    simp only [List.all_cons, Bool.and_eq_true] at h
    simp [replaceDisallowedGo, h.1, ih false h.2]

/-- C8 (amended): `processLabelName` accepts a name exactly when the
canonicalizing coercion is a no-op, which happens exactly when every
character is in `[a-zA-Z0-9._-]` — including the empty name, which is
accepted although it does not match the non-empty pattern
`^[a-zA-Z0-9._-]+$`. -/
theorem c8_validator_characterization (label : String) :
    processLabelName label = true ↔ label.data.all isAllowedLabelChar = true := by
  unfold processLabelName
  rw [beq_iff_eq]
  constructor
  · intro h
    rw [← h]
    exact replaceDisallowedGo_all_allowed false (replaceFirstWsRun label.data)
  · intro h
    have hnws : ∀ c ∈ label.data, isJsWs c = false := fun c hc =>
      allowed_char_not_ws c (by
        rw [List.all_eq_true] at h
        exact h c hc)
    rw [replaceFirstWsRun_of_no_ws label.data hnws,
      replaceDisallowedGo_of_allowed false label.data h]

/-- C8 (counterexample): the empty name is accepted by the validator (the
coercion is a no-op on it) yet does not match `^[a-zA-Z0-9._-]+$`; the
claim's worked examples do hold. -/
theorem c8_counterexample :
    processLabelName "" = true ∧ specLabelNamePattern "" = false ∧
    processLabelName "foo bar" = false ∧ processLabelName "foo.bar" = true := by
  refine ⟨by decide, by decide, by decide, by decide⟩

/-- `k.isPrefixOf t` on character lists as an append decomposition. -/
theorem prefixOf_iff_append (k t : List Char) :
    k.isPrefixOf t = true ↔ ∃ r, t = k ++ r := by
  induction k generalizing t with
  | nil => simp [List.isPrefixOf]
  | cons a ks ih =>
    cases t with
    | nil => simp [List.isPrefixOf]
    | cons b ts =>
      simp only [List.isPrefixOf, Bool.and_eq_true, beq_iff_eq, ih,
        List.cons_append, List.cons.injEq]
      constructor
      · rintro ⟨rfl, r, rfl⟩
        exact ⟨r, rfl, rfl⟩
      · rintro ⟨r, rfl, rfl⟩
        exact ⟨rfl, r, rfl⟩

/-- One position of the env-file regex matches exactly on `.env` or
`.env.<terminator-free suffix>`. -/
theorem envMatchHere_iff (t : List Char) :
    envMatchHere t = true ↔
      t = dotEnvChars ∨
      ∃ q, t = dotEnvChars ++ '.' :: q ∧ q.all (fun d => !isLineTerm d) = true := by
  unfold envMatchHere
  rw [Bool.and_eq_true, prefixOf_iff_append]
  constructor
  · rintro ⟨⟨r, rfl⟩, h2⟩
    have hdrop : (dotEnvChars ++ r).drop 4 = r := by
      have h := List.drop_left dotEnvChars r
      simp only [dotEnvChars, List.length_cons, List.length_nil] at h
      exact h
    rw [hdrop] at h2
    cases r with
    | nil => exact Or.inl (by simp)
    | cons c q =>
      simp only [Bool.and_eq_true, beq_iff_eq, decide_eq_true_eq] at h2
      obtain ⟨rfl, hq⟩ := h2
      exact Or.inr ⟨q, rfl, hq⟩
  · rintro (rfl | ⟨q, rfl, hq⟩)
    · exact ⟨⟨[], by simp⟩, by simp [dotEnvChars]⟩
    · refine ⟨⟨'.' :: q, rfl⟩, ?_⟩
      have hdrop : (dotEnvChars ++ '.' :: q).drop 4 = '.' :: q := by
        have h := List.drop_left dotEnvChars ('.' :: q)
        simp only [dotEnvChars, List.length_cons, List.length_nil] at h
        exact h
      rw [hdrop]
      simp [hq]

/-- The position scan of `test` finds a match iff some split of the input
carries one. -/
theorem envScan_iff (l : List Char) :
    envScan l = true ↔ ∃ p t, p ++ t = l ∧ envMatchHere t = true := by
  induction l with
  | nil =>
    simp only [envScan]
    constructor
    · intro h; cases h
    · rintro ⟨p, t, heq, hm⟩
      rw [List.append_eq_nil] at heq
      rw [heq.2] at hm
      cases hm
  | cons c cs ih =>
    simp only [envScan, Bool.or_eq_true, ih]
    constructor
    · rintro (h | ⟨p, t, heq, hm⟩)
      · exact ⟨[], c :: cs, rfl, h⟩
      · exact ⟨c :: p, t, by rw [List.cons_append, heq], hm⟩
    · rintro ⟨p, t, heq, hm⟩
      cases p with
      | nil => exact Or.inl (by simpa using heq ▸ hm)
      | cons a p2 =>
        rw [List.cons_append, List.cons.injEq] at heq
        exact Or.inr ⟨p2, t, heq.2, hm⟩

/-- C9 (amended): a file name is an env candidate iff the name ends in
`.env`, or contains `.env.` followed only by non-line-terminator characters
up to the end — the regex is unanchored, so names such as `config.env` are
candidates too. -/
theorem c9_env_candidate_characterization (fileName : String) :
    envFileTest fileName = true ↔
      (∃ p, fileName.data = p ++ dotEnvChars) ∨
      (∃ p q, fileName.data = p ++ dotEnvChars ++ '.' :: q ∧
        q.all (fun d => !isLineTerm d) = true) := by
  unfold envFileTest
  rw [envScan_iff]
  constructor
  · rintro ⟨p, t, heq, hm⟩
    rcases (envMatchHere_iff t).mp hm with rfl | ⟨q, rfl, hq⟩
    · exact Or.inl ⟨p, heq.symm⟩
    · exact Or.inr ⟨p, q, by rw [← heq, List.append_assoc], hq⟩
  · rintro (⟨p, heq⟩ | ⟨p, q, heq, hq⟩)
    · exact ⟨p, dotEnvChars, heq.symm, (envMatchHere_iff _).mpr (Or.inl rfl)⟩
    · exact ⟨p, dotEnvChars ++ '.' :: q, by rw [heq, List.append_assoc],
        (envMatchHere_iff _).mpr (Or.inr ⟨q, rfl, hq⟩)⟩

/-- C9 (counterexample): `config.env` is accepted by the source regex even
though it is neither `.env` nor of the form `.env.<suffix>`. -/
theorem c9_counterexample :
    envFileTest "config.env" = true ∧ specEnvNameForm "config.env" = false := by
  refine ⟨by decide, by decide⟩

/-! ### Association-list object lemmas -/

theorem lookup_setKey_self {α : Type} (m : List (String × α)) (k : String)
    (v : α) : lookupKey (setKey m k v) k = some v := by
  induction m with
  | nil => simp [setKey, lookupKey]
  | cons p rest ih =>
    obtain ⟨k2, v2⟩ := p
    by_cases h : k2 = k
    · simp [setKey, h, lookupKey]
    · simp [setKey, h, lookupKey, ih]

theorem lookup_setKey_ne {α : Type} (m : List (String × α)) (k k2 : String)
    (v : α) (h : k2 ≠ k) : lookupKey (setKey m k v) k2 = lookupKey m k2 := by
  have hkk : ¬k = k2 := Ne.symm h
  induction m with
  | nil => simp [setKey, lookupKey, hkk]
  | cons p rest ih =>
    obtain ⟨k3, v3⟩ := p
    by_cases h3 : k3 = k
    · subst h3
      simp [setKey, lookupKey, hkk]
    · simp only [setKey, h3, if_false, lookupKey]
      by_cases h2 : k3 = k2
      · simp [h2]
      · simp [h2, ih]

theorem lookup_eq_none_of_not_mem {α : Type} (m : List (String × α))
    (k : String) (h : k ∉ m.map Prod.fst) : lookupKey m k = none := by
  induction m with
  | nil => rfl
  | cons p rest ih =>
    obtain ⟨k2, v2⟩ := p
    simp only [List.map_cons, List.mem_cons, not_or] at h
    have h1 : ¬k2 = k := Ne.symm h.1
    simp [lookupKey, h1, ih h.2]

/-- Folding the per-locale overwrites over keys absent from the incoming map
leaves their lookups unchanged. -/
theorem lookup_foldl_setKey_of_none (trs : Translations) (base : Translations)
    (l : String) (h : lookupKey trs l = none) :
    lookupKey (trs.foldl (fun acc p => setKey acc p.1 p.2) base) l =
      lookupKey base l := by
  induction trs generalizing base with
  | nil => rfl
  | cons p rest ih =>
    obtain ⟨k, v⟩ := p
    simp only [lookupKey] at h
    by_cases hk : k = l
    · simp [hk] at h
    · simp only [hk, if_false] at h
      rw [List.foldl_cons, ih (setKey base k v) h,
        lookup_setKey_ne _ _ _ _ (Ne.symm hk)]

/-- Folding the per-locale overwrites gives each incoming key its incoming
value (keys are unique: the map comes from a JavaScript `Map`). -/
theorem lookup_foldl_setKey_of_some (trs : Translations) (base : Translations)
    (l v : String) (hnd : (trs.map Prod.fst).Nodup)
    (h : lookupKey trs l = some v) :
    lookupKey (trs.foldl (fun acc p => setKey acc p.1 p.2) base) l = some v := by
  induction trs generalizing base with
  | nil => simp [lookupKey] at h
  | cons p rest ih =>
    obtain ⟨k, w⟩ := p
    simp only [List.map_cons, List.nodup_cons] at hnd
    simp only [lookupKey] at h
    by_cases hk : k = l
    · subst hk
      simp only [if_true] at h
      obtain rfl : w = v := by simpa using h
      have hnone : lookupKey rest k = none :=
        lookup_eq_none_of_not_mem rest k hnd.1
      rw [List.foldl_cons, lookup_foldl_setKey_of_none rest _ k hnone,
        lookup_setKey_self]
    · simp only [hk, if_false] at h
      rw [List.foldl_cons]
      exact ih (setKey base k w) hnd.2 h

/-! ### Round trip of `JSON.parse` over `JSON.stringify` on label files -/

theorem hexVal_hexDigit (n : Nat) (h : n < 16) : hexVal (hexDigit n) = some n := by
  interval_cases n <;> decide

/-- Unescaping inverts escaping, one string body at a time. -/
theorem parseStrBody_escape (s : List Char) :
    ∀ fuel r, s.length < fuel →
      parseStrBody fuel (escapeChars s ++ '"' :: r) = some (s, r) := by
  induction s with
  | nil =>
    intro fuel r h
    obtain ⟨g, rfl⟩ : ∃ g, fuel = g + 1 := ⟨fuel - 1, by omega⟩
    rfl
  | cons c s ih =>
    intro fuel r h
    obtain ⟨g, rfl⟩ : ∃ g, fuel = g + 1 := ⟨fuel - 1, by omega⟩
    have hg : s.length < g := by simp at h; omega
    have hesc : escapeChars (c :: s) = escChar c ++ escapeChars s := rfl
    rw [hesc, List.append_assoc]
    unfold escChar
    split_ifs with h1 h2 h3 h4 h5 h6 h7 h8
    · subst h1
      simp only [List.cons_append, List.nil_append]
      rw [show parseStrBody (g + 1)
          ('\\' :: '"' :: (escapeChars s ++ '"' :: r)) =
          (parseStrBody g (escapeChars s ++ '"' :: r)).bind fun p =>
            some ('"' :: p.1, p.2) from rfl, ih g r hg]
      rfl
    · subst h2
      simp only [List.cons_append, List.nil_append]
      rw [show parseStrBody (g + 1)
          ('\\' :: '\\' :: (escapeChars s ++ '"' :: r)) =
          (parseStrBody g (escapeChars s ++ '"' :: r)).bind fun p =>
            some ('\\' :: p.1, p.2) from rfl, ih g r hg]
      rfl
    · subst h3
      simp only [List.cons_append, List.nil_append]
      rw [show parseStrBody (g + 1)
          ('\\' :: 'b' :: (escapeChars s ++ '"' :: r)) =
          (parseStrBody g (escapeChars s ++ '"' :: r)).bind fun p =>
            some ('\x08' :: p.1, p.2) from rfl, ih g r hg]
      rfl
    · subst h4
      simp only [List.cons_append, List.nil_append]
      rw [show parseStrBody (g + 1)
          ('\\' :: 't' :: (escapeChars s ++ '"' :: r)) =
          (parseStrBody g (escapeChars s ++ '"' :: r)).bind fun p =>
            some ('\t' :: p.1, p.2) from rfl, ih g r hg]
      rfl
    · subst h5
      simp only [List.cons_append, List.nil_append]
      rw [show parseStrBody (g + 1)
          ('\\' :: 'n' :: (escapeChars s ++ '"' :: r)) =
          (parseStrBody g (escapeChars s ++ '"' :: r)).bind fun p =>
            some ('\n' :: p.1, p.2) from rfl, ih g r hg]
      rfl
    · subst h6
      simp only [List.cons_append, List.nil_append]
      rw [show parseStrBody (g + 1)
          ('\\' :: 'f' :: (escapeChars s ++ '"' :: r)) =
          (parseStrBody g (escapeChars s ++ '"' :: r)).bind fun p =>
            some ('\x0c' :: p.1, p.2) from rfl, ih g r hg]
      rfl
    · subst h7
      simp only [List.cons_append, List.nil_append]
      rw [show parseStrBody (g + 1)
          ('\\' :: 'r' :: (escapeChars s ++ '"' :: r)) =
          (parseStrBody g (escapeChars s ++ '"' :: r)).bind fun p =>
            some ('\r' :: p.1, p.2) from rfl, ih g r hg]
      rfl
    · have hdiv : c.toNat / 16 < 16 := by omega
      have hmod : c.toNat % 16 < 16 := by omega
      simp only [List.cons_append, List.nil_append]
      rw [show parseStrBody (g + 1) ('\\' :: 'u' :: '0' :: '0' ::
          hexDigit (c.toNat / 16) :: hexDigit (c.toNat % 16) ::
          (escapeChars s ++ '"' :: r)) =
          (hexVal (hexDigit (c.toNat / 16))).bind fun vc =>
            (hexVal (hexDigit (c.toNat % 16))).bind fun vd =>
              (parseStrBody g (escapeChars s ++ '"' :: r)).bind fun p =>
                some (Char.ofNat (0 * 4096 + 0 * 256 + vc * 16 + vd) :: p.1,
                  p.2) from rfl,
        hexVal_hexDigit _ hdiv, hexVal_hexDigit _ hmod, ih g r hg]
      have harith : 0 * 4096 + 0 * 256 + c.toNat / 16 * 16 + c.toNat % 16 =
          c.toNat := by omega
      simp only [Option.some_bind]
      rw [harith, Char.ofNat_toNat]
    · simp only [List.cons_append, List.nil_append]
      rw [show parseStrBody (g + 1) (c :: (escapeChars s ++ '"' :: r)) =
          if c = '"' then some ([], escapeChars s ++ '"' :: r)
          else if c = '\\' then
            match escapeChars s ++ '"' :: r with
            | [] => none
            | e :: r2 =>
              if e = 'u' then
                match r2 with
                | a :: b :: c2 :: d :: r6 => do
                  let va ← hexVal a
                  let vb ← hexVal b
                  let vc ← hexVal c2
                  let vd ← hexVal d
                  let p ← parseStrBody g r6
                  some (Char.ofNat (va * 4096 + vb * 256 + vc * 16 + vd) ::
                    p.1, p.2)
                | _ => none
              else do
                let decoded ← decodeEsc e
                let p ← parseStrBody g r2
                some (decoded :: p.1, p.2)
          else
            (parseStrBody g (escapeChars s ++ '"' :: r)).bind fun p =>
              some (c :: p.1, p.2) from rfl]
      rw [if_neg h1, if_neg h2, ih g r hg]
      rfl

/-- Quoted-string round trip. -/
theorem parseQStr_qstr (fuel : Nat) (k : String) (r : List Char)
    (h : k.data.length < fuel) : parseQStr fuel (qstr k ++ r) = some (k, r) := by
  have hshape : qstr k ++ r = '"' :: (escapeChars k.data ++ '"' :: r) := by
    show '"' :: (escapeChars k.data ++ ['"']) ++ r = _
    rw [List.cons_append, List.append_assoc]
    rfl
  rw [hshape]
  show ((expectChar '"' ('"' :: (escapeChars k.data ++ '"' :: r))).bind fun t =>
    (parseStrBody fuel t).bind fun p => some (String.mk p.1, p.2)) = some (k, r)
  rw [show expectChar '"' ('"' :: (escapeChars k.data ++ '"' :: r)) =
    some (escapeChars k.data ++ '"' :: r) from by simp [expectChar]]
  rw [Option.some_bind, parseStrBody_escape k.data fuel r h, Option.some_bind]

theorem expectChar_cons_self (c : Char) (r : List Char) :
    expectChar c (c :: r) = some r := by
  simp [expectChar]

/-- `skipWs` passes over indentation. -/
theorem skipWs_replicate_space (n : Nat) (l : List Char) :
    skipWs (List.replicate n ' ' ++ l) = skipWs l := by
  induction n with
  | zero => rfl
  | succ n ih =>
    rw [List.replicate_succ, List.cons_append]
    show List.dropWhile isJsonWs (' ' :: (List.replicate n ' ' ++ l)) = _
    rw [List.dropWhile_cons_of_pos (by decide)]
    exact ih

theorem skipWs_pad_append (n : Nat) (l : List Char) :
    skipWs (pad n ++ l) = skipWs l :=
  skipWs_replicate_space (2 * n) l

theorem skipWs_cons_of_ws (c : Char) (l : List Char) (h : isJsonWs c = true) :
    skipWs (c :: l) = skipWs l := by
  show List.dropWhile isJsonWs (c :: l) = _
  rw [List.dropWhile_cons_of_pos h]
  rfl

theorem skipWs_cons_of_not_ws (c : Char) (l : List Char)
    (h : isJsonWs c = false) : skipWs (c :: l) = c :: l := by
  show List.dropWhile isJsonWs (c :: l) = _
  rw [List.dropWhile_cons_of_neg (by simp [h])]

/-- `skipWs` stops at the opening quote of a serialized string literal. -/
theorem skipWs_qstr_append (k : String) (l : List Char) :
    skipWs (qstr k ++ l) = qstr k ++ l := by
  show skipWs ('"' :: (escapeChars k.data ++ ['"']) ++ l) = _
  rw [List.cons_append]
  exact skipWs_cons_of_not_ws _ _ (by decide)

theorem sepStep_comma (r : List Char) : sepStep (',' :: r) = some (true, r) := by
  simp [sepStep]

theorem sepStep_close (r : List Char) : sepStep ('}' :: r) = some (false, r) := by
  simp [sepStep]

/-- String-object members round trip. -/
theorem parseStrMembers_ser (level : Nat) (m : List (String × String)) :
    ∀ fuel suffix tail, memberWeight m < fuel → m ≠ [] →
      skipWs suffix = '}' :: tail →
      parseStrMembers fuel (skipWs (serStrMembers level m ++ suffix)) =
        some (m, tail) := by
  induction m with
  | nil => intro _ _ _ _ hne _; exact absurd rfl hne
  | cons p rest ih =>
    obtain ⟨k, v⟩ := p
    intro fuel suffix tail hw hne hsuf
    obtain ⟨g, rfl⟩ : ∃ g, fuel = g + 1 := ⟨fuel - 1, by omega⟩
    have hkw : k.data.length < g := by
      simp only [memberWeight] at hw; omega
    have hvw : v.data.length < g := by
      simp only [memberWeight] at hw; omega
    cases rest with
    | nil =>
      have hser : serStrMembers level [(k, v)] ++ suffix =
          pad level ++ (qstr k ++ ':' :: ' ' :: (qstr v ++ suffix)) := by
        show (pad level ++ qstr k ++ ':' :: ' ' :: qstr v) ++ suffix = _
        simp [List.append_assoc]
      rw [hser, skipWs_pad_append, skipWs_qstr_append]
      rw [parseStrMembers]
      rw [parseQStr_qstr g k _ hkw, Option.some_bind]
      simp only
      rw [skipWs_cons_of_not_ws ':' _ (by decide), expectChar_cons_self,
        Option.some_bind]
      rw [skipWs_cons_of_ws ' ' _ (by decide), skipWs_qstr_append,
        parseQStr_qstr g v _ hvw, Option.some_bind]
      simp only
      rw [hsuf, sepStep_close, Option.some_bind]
      simp only [if_false, Bool.false_eq_true]
    | cons q rest2 =>
      have hser : serStrMembers level ((k, v) :: q :: rest2) ++ suffix =
          pad level ++ (qstr k ++ ':' :: ' ' :: (qstr v ++ ',' :: '\n' ::
            (serStrMembers level (q :: rest2) ++ suffix))) := by
        show (pad level ++ qstr k ++ ':' :: ' ' :: qstr v ++ ',' :: '\n' ::
          serStrMembers level (q :: rest2)) ++ suffix = _
        simp [List.append_assoc]
      rw [hser, skipWs_pad_append, skipWs_qstr_append]
      rw [parseStrMembers]
      rw [parseQStr_qstr g k _ hkw, Option.some_bind]
      simp only
      rw [skipWs_cons_of_not_ws ':' _ (by decide), expectChar_cons_self,
        Option.some_bind]
      rw [skipWs_cons_of_ws ' ' _ (by decide), skipWs_qstr_append,
        parseQStr_qstr g v _ hvw, Option.some_bind]
      simp only
      rw [skipWs_cons_of_not_ws ',' _ (by decide), sepStep_comma,
        Option.some_bind]
      simp only [if_true]
      rw [skipWs_cons_of_ws '\n' _ (by decide)]
      rw [ih g suffix tail (by simp only [memberWeight] at hw ⊢; omega)
        (by simp) hsuf, Option.some_bind]

/-- The serialized members of a non-empty object start with a quote after
whitespace. -/
theorem skipWs_serStrMembers (level : Nat) (k v : String)
    (rest : List (String × String)) (suffix : List Char) :
    ∃ X, skipWs (serStrMembers level ((k, v) :: rest) ++ suffix) = '"' :: X := by
  cases rest with
  | nil =>
    refine ⟨escapeChars k.data ++ ['"'] ++ (':' :: ' ' :: qstr v ++ suffix), ?_⟩
    show skipWs ((pad level ++ qstr k ++ ':' :: ' ' :: qstr v) ++ suffix) = _
    rw [show (pad level ++ qstr k ++ ':' :: ' ' :: qstr v) ++ suffix =
      pad level ++ (qstr k ++ (':' :: ' ' :: qstr v ++ suffix)) by
        simp [List.append_assoc]]
    rw [skipWs_pad_append, skipWs_qstr_append]
    show '"' :: (escapeChars k.data ++ ['"']) ++ _ = _
    simp [List.append_assoc]
  | cons q rest2 =>
    refine ⟨escapeChars k.data ++ ['"'] ++ (':' :: ' ' :: qstr v ++ ',' ::
      '\n' :: serStrMembers level (q :: rest2) ++ suffix), ?_⟩
    show skipWs ((pad level ++ qstr k ++ ':' :: ' ' :: qstr v ++ ',' :: '\n' ::
      serStrMembers level (q :: rest2)) ++ suffix) = _
    rw [show (pad level ++ qstr k ++ ':' :: ' ' :: qstr v ++ ',' :: '\n' ::
      serStrMembers level (q :: rest2)) ++ suffix =
      pad level ++ (qstr k ++ (':' :: ' ' :: qstr v ++ ',' :: '\n' ::
        serStrMembers level (q :: rest2) ++ suffix)) by
        simp [List.append_assoc]]
    rw [skipWs_pad_append, skipWs_qstr_append]
    show '"' :: (escapeChars k.data ++ ['"']) ++ _ = _
    simp [List.append_assoc]

/-- String-object round trip. -/
theorem parseStrObj_ser (level : Nat) (m : List (String × String)) (fuel : Nat)
    (r : List Char) (hw : memberWeight m < fuel) :
    parseStrObj fuel (serStrObj level m ++ r) = some (m, r) := by
  cases m with
  | nil =>
    show parseStrObj fuel ('{' :: '}' :: r) = some ([], r)
    rw [parseStrObj, expectChar_cons_self, Option.some_bind,
      skipWs_cons_of_not_ws '}' _ (by decide), expectChar_cons_self]
  | cons p rest =>
    obtain ⟨k, v⟩ := p
    show parseStrObj fuel ('{' :: '\n' ::
      ((serStrMembers (level + 1) ((k, v) :: rest) ++ '\n' :: pad level ++
        ['}']) ++ r)) = _
    rw [parseStrObj, expectChar_cons_self, Option.some_bind]
    have hassoc : (serStrMembers (level + 1) ((k, v) :: rest) ++ '\n' ::
        pad level ++ ['}']) ++ r =
        serStrMembers (level + 1) ((k, v) :: rest) ++ ('\n' :: pad level ++
          ('}' :: r)) := by
      simp [List.append_assoc]
    rw [skipWs_cons_of_ws '\n' _ (by decide), hassoc]
    obtain ⟨X, hX⟩ := skipWs_serStrMembers (level + 1) k v rest
      ('\n' :: pad level ++ ('}' :: r))
    rw [hX]
    rw [show expectChar '}' ('"' :: X) = none from by simp [expectChar]]
    rw [← hX]
    exact parseStrMembers_ser (level + 1) ((k, v) :: rest) fuel _ r hw
      (by simp)
      (by rw [List.cons_append, skipWs_cons_of_ws '\n' _ (by decide),
        skipWs_pad_append, skipWs_cons_of_not_ws '}' _ (by decide)])

theorem skipWs_serStrObj_append (level : Nat) (m : List (String × String))
    (w : List Char) : skipWs (serStrObj level m ++ w) = serStrObj level m ++ w := by
  cases m with
  | nil =>
    show skipWs ('{' :: '}' :: w) = _
    exact skipWs_cons_of_not_ws _ _ (by decide)
  | cons p rest =>
    show skipWs ('{' :: ('\n' :: (serStrMembers (level + 1) (p :: rest) ++
      '\n' :: pad level ++ ['}']) ++ w)) = _
    exact skipWs_cons_of_not_ws _ _ (by decide)

/-- Label-value round trip. -/
theorem parseLabelValue_ser (level : Nat) (ts : Translations) (fuel : Nat)
    (r : List Char) (hw : memberWeight ts + 13 ≤ fuel) :
    parseLabelValue fuel (serLabelValue level ts ++ r) = some (ts, r) := by
  show parseLabelValue fuel ('{' :: '\n' :: ((pad (level + 1) ++
    qstr "translations" ++ ':' :: ' ' :: serStrObj (level + 1) ts ++ '\n' ::
      pad level ++ ['}']) ++ r)) = _
  rw [parseLabelValue, expectChar_cons_self, Option.some_bind]
  rw [show ('\n' :: ((pad (level + 1) ++ qstr "translations" ++ ':' :: ' ' ::
    serStrObj (level + 1) ts ++ '\n' :: pad level ++ ['}']) ++ r)) =
    '\n' :: (pad (level + 1) ++ (qstr "translations" ++ (':' :: ' ' ::
      (serStrObj (level + 1) ts ++ ('\n' :: (pad level ++ ('}' :: r))))))) by
    simp [List.append_assoc]]
  rw [skipWs_cons_of_ws '\n' _ (by decide), skipWs_pad_append,
    skipWs_qstr_append]
  rw [parseQStr_qstr fuel "translations" _ (by
    show ("translations".data).length < fuel
    norm_num at hw ⊢
    omega), Option.some_bind]
  simp only [if_pos rfl]
  rw [skipWs_cons_of_not_ws ':' _ (by decide), expectChar_cons_self,
    Option.some_bind]
  rw [skipWs_cons_of_ws ' ' _ (by decide), skipWs_serStrObj_append,
    parseStrObj_ser (level + 1) ts fuel _ (by omega), Option.some_bind]
  rw [skipWs_cons_of_ws '\n' _ (by decide), skipWs_pad_append,
    skipWs_cons_of_not_ws '}' _ (by decide), expectChar_cons_self,
    Option.some_bind]
  simp

theorem skipWs_serLabelValue_append (level : Nat) (ts : Translations)
    (w : List Char) :
    skipWs (serLabelValue level ts ++ w) = serLabelValue level ts ++ w := by
  show skipWs ('{' :: _) = _
  exact skipWs_cons_of_not_ws _ _ (by decide)

/-- Label-members round trip. -/
theorem parseLabelMembers_ser (level : Nat) (f : LabelFile) :
    ∀ fuel suffix tail, labelWeight f < fuel → f ≠ [] →
      skipWs suffix = '}' :: tail →
      parseLabelMembers fuel (skipWs (serLabelMembers level f ++ suffix)) =
        some (f, tail) := by
  induction f with
  | nil => intro _ _ _ _ hne _; exact absurd rfl hne
  | cons p rest ih =>
    obtain ⟨k, ts⟩ := p
    intro fuel suffix tail hw hne hsuf
    obtain ⟨g, rfl⟩ : ∃ g, fuel = g + 1 := ⟨fuel - 1, by omega⟩
    have hkw : k.data.length < g := by
      simp only [labelWeight] at hw; omega
    have htw : memberWeight ts + 13 ≤ g := by
      simp only [labelWeight] at hw; omega
    cases rest with
    | nil =>
      have hser : serLabelMembers level [(k, ts)] ++ suffix =
          pad level ++ (qstr k ++ ':' :: ' ' ::
            (serLabelValue level ts ++ suffix)) := by
        show (pad level ++ qstr k ++ ':' :: ' ' :: serLabelValue level ts) ++
          suffix = _
        simp [List.append_assoc]
      rw [hser, skipWs_pad_append, skipWs_qstr_append]
      rw [parseLabelMembers]
      rw [parseQStr_qstr g k _ hkw, Option.some_bind]
      simp only
      rw [skipWs_cons_of_not_ws ':' _ (by decide), expectChar_cons_self,
        Option.some_bind]
      rw [skipWs_cons_of_ws ' ' _ (by decide), skipWs_serLabelValue_append,
        parseLabelValue_ser level ts g _ htw, Option.some_bind]
      simp only
      rw [hsuf, sepStep_close, Option.some_bind]
      simp only [if_false, Bool.false_eq_true]
    | cons q rest2 =>
      have hser : serLabelMembers level ((k, ts) :: q :: rest2) ++ suffix =
          pad level ++ (qstr k ++ ':' :: ' ' :: (serLabelValue level ts ++
            ',' :: '\n' :: (serLabelMembers level (q :: rest2) ++ suffix))) := by
        show (pad level ++ qstr k ++ ':' :: ' ' :: serLabelValue level ts ++
          ',' :: '\n' :: serLabelMembers level (q :: rest2)) ++ suffix = _
        simp [List.append_assoc]
      rw [hser, skipWs_pad_append, skipWs_qstr_append]
      rw [parseLabelMembers]
      rw [parseQStr_qstr g k _ hkw, Option.some_bind]
      simp only
      rw [skipWs_cons_of_not_ws ':' _ (by decide), expectChar_cons_self,
        Option.some_bind]
      have hval : serLabelValue level ts ++ ',' :: '\n' ::
          (serLabelMembers level (q :: rest2) ++ suffix) =
          serLabelValue level ts ++ (',' :: '\n' ::
            (serLabelMembers level (q :: rest2) ++ suffix)) := rfl
      rw [skipWs_cons_of_ws ' ' _ (by decide), skipWs_serLabelValue_append,
        parseLabelValue_ser level ts g _ htw, Option.some_bind]
      simp only
      rw [skipWs_cons_of_not_ws ',' _ (by decide), sepStep_comma,
        Option.some_bind]
      simp only [if_true]
      rw [skipWs_cons_of_ws '\n' _ (by decide)]
      rw [ih g suffix tail (by simp only [labelWeight] at hw ⊢; omega)
        (by simp) hsuf, Option.some_bind]

/-- The serialized members of a non-empty label file start with a quote after
whitespace. -/
theorem skipWs_serLabelMembers (level : Nat) (k : String) (ts : Translations)
    (rest : LabelFile) (suffix : List Char) :
    ∃ X, skipWs (serLabelMembers level ((k, ts) :: rest) ++ suffix) =
      '"' :: X := by
  cases rest with
  | nil =>
    refine ⟨escapeChars k.data ++ ['"'] ++ (':' :: ' ' ::
      serLabelValue level ts ++ suffix), ?_⟩
    show skipWs ((pad level ++ qstr k ++ ':' :: ' ' ::
      serLabelValue level ts) ++ suffix) = _
    rw [show (pad level ++ qstr k ++ ':' :: ' ' :: serLabelValue level ts) ++
      suffix = pad level ++ (qstr k ++ (':' :: ' ' ::
        serLabelValue level ts ++ suffix)) by simp [List.append_assoc]]
    rw [skipWs_pad_append, skipWs_qstr_append]
    show '"' :: (escapeChars k.data ++ ['"']) ++ _ = _
    simp [List.append_assoc]
  | cons q rest2 =>
    refine ⟨escapeChars k.data ++ ['"'] ++ (':' :: ' ' ::
      serLabelValue level ts ++ ',' :: '\n' ::
        serLabelMembers level (q :: rest2) ++ suffix), ?_⟩
    show skipWs ((pad level ++ qstr k ++ ':' :: ' ' ::
      serLabelValue level ts ++ ',' :: '\n' ::
        serLabelMembers level (q :: rest2)) ++ suffix) = _
    rw [show (pad level ++ qstr k ++ ':' :: ' ' :: serLabelValue level ts ++
      ',' :: '\n' :: serLabelMembers level (q :: rest2)) ++ suffix =
      pad level ++ (qstr k ++ (':' :: ' ' :: serLabelValue level ts ++
        ',' :: '\n' :: serLabelMembers level (q :: rest2) ++ suffix)) by
      simp [List.append_assoc]]
    rw [skipWs_pad_append, skipWs_qstr_append]
    show '"' :: (escapeChars k.data ++ ['"']) ++ _ = _
    simp [List.append_assoc]

/-- Top-level label-file round trip. -/
theorem parseLabelTop_ser (f : LabelFile) (fuel : Nat) (r : List Char)
    (hw : labelWeight f < fuel) :
    parseLabelTop fuel (serLabelFile f ++ r) = some (f, r) := by
  cases f with
  | nil =>
    show parseLabelTop fuel ('{' :: '}' :: r) = some ([], r)
    rw [parseLabelTop, skipWs_cons_of_not_ws '{' _ (by decide),
      expectChar_cons_self, Option.some_bind,
      skipWs_cons_of_not_ws '}' _ (by decide), expectChar_cons_self]
  | cons p rest =>
    obtain ⟨k, ts⟩ := p
    show parseLabelTop fuel ('{' :: '\n' ::
      ((serLabelMembers 1 ((k, ts) :: rest) ++ '\n' :: ['}']) ++ r)) = _
    rw [parseLabelTop, skipWs_cons_of_not_ws '{' _ (by decide),
      expectChar_cons_self, Option.some_bind]
    have hassoc : (serLabelMembers 1 ((k, ts) :: rest) ++ '\n' :: ['}']) ++ r =
        serLabelMembers 1 ((k, ts) :: rest) ++ ('\n' :: ('}' :: r)) := by
      simp [List.append_assoc]
    rw [skipWs_cons_of_ws '\n' _ (by decide), hassoc]
    obtain ⟨X, hX⟩ := skipWs_serLabelMembers 1 k ts rest ('\n' :: ('}' :: r))
    rw [hX]
    rw [show expectChar '}' ('"' :: X) = none from by simp [expectChar]]
    rw [← hX]
    exact parseLabelMembers_ser 1 ((k, ts) :: rest) fuel _ r hw (by simp)
      (by rw [skipWs_cons_of_ws '\n' _ (by decide),
        skipWs_cons_of_not_ws '}' _ (by decide)])

theorem escChar_length_pos (c : Char) : 1 ≤ (escChar c).length := by
  unfold escChar
  split_ifs <;> simp

theorem length_le_escapeChars (s : List Char) :
    s.length ≤ (escapeChars s).length := by
  induction s with
  | nil => simp [escapeChars]
  | cons c cs ih =>
    have h := escChar_length_pos c
    calc (c :: cs).length = 1 + cs.length := by simp; omega
    _ ≤ (escChar c).length + (escapeChars cs).length := by omega
    _ = (escapeChars (c :: cs)).length := by
        show _ = (escChar c ++ escapeChars cs).length
        simp

theorem qstr_length (k : String) :
    (qstr k).length = (escapeChars k.data).length + 2 := by
  show ('"' :: (escapeChars k.data ++ ['"'])).length = _
  simp

theorem memberWeight_le_serStrMembers (level : Nat)
    (m : List (String × String)) :
    memberWeight m ≤ (serStrMembers level m).length := by
  induction m with
  | nil => simp [memberWeight, serStrMembers]
  | cons p rest ih =>
    obtain ⟨k, v⟩ := p
    have hk := length_le_escapeChars k.data
    have hv := length_le_escapeChars v.data
    have hklen : k.data.length = k.length := rfl
    have hvlen : v.data.length = v.length := rfl
    cases rest with
    | nil =>
      show memberWeight [(k, v)] ≤
        (pad level ++ qstr k ++ ':' :: ' ' :: qstr v).length
      simp [memberWeight, qstr_length]
      omega
    | cons q rest2 =>
      show memberWeight ((k, v) :: q :: rest2) ≤
        (pad level ++ qstr k ++ ':' :: ' ' :: qstr v ++ ',' :: '\n' ::
          serStrMembers level (q :: rest2)).length
      simp only [memberWeight, List.length_append, List.length_cons,
        qstr_length] at *
      omega

theorem memberWeight_le_serStrObj (level : Nat) (m : List (String × String)) :
    memberWeight m ≤ (serStrObj level m).length := by
  cases m with
  | nil => simp [memberWeight, serStrObj]
  | cons p rest =>
    have h := memberWeight_le_serStrMembers (level + 1) (p :: rest)
    show memberWeight (p :: rest) ≤ ('{' :: '\n' ::
      (serStrMembers (level + 1) (p :: rest) ++ '\n' :: pad level ++
        ['}'])).length
    simp only [List.length_append, List.length_cons] at *
    omega

theorem labelWeight_le_serLabelMembers (level : Nat) (f : LabelFile) :
    labelWeight f ≤ (serLabelMembers level f).length := by
  induction f with
  | nil => simp [labelWeight, serLabelMembers]
  | cons p rest ih =>
    obtain ⟨k, ts⟩ := p
    have hk := length_le_escapeChars k.data
    have hklen : k.data.length = k.length := rfl
    have hts := memberWeight_le_serStrObj (level + 1) ts
    have hqt : (qstr "translations").length = 14 := by decide
    have hval : (serLabelValue level ts).length =
        2 + (pad (level + 1)).length + 14 + 2 +
          (serStrObj (level + 1) ts).length + 1 + (pad level).length + 1 := by
      show ('{' :: '\n' :: (pad (level + 1) ++ qstr "translations" ++ ':' ::
        ' ' :: serStrObj (level + 1) ts ++ '\n' :: pad level ++ ['}'])).length = _
      simp [hqt]
      omega
    cases rest with
    | nil =>
      show labelWeight [(k, ts)] ≤
        (pad level ++ qstr k ++ ':' :: ' ' :: serLabelValue level ts).length
      simp only [labelWeight, List.length_append, List.length_cons,
        qstr_length, hval] at *
      omega
    | cons q rest2 =>
      show labelWeight ((k, ts) :: q :: rest2) ≤
        (pad level ++ qstr k ++ ':' :: ' ' :: serLabelValue level ts ++
          ',' :: '\n' :: serLabelMembers level (q :: rest2)).length
      simp only [labelWeight, List.length_append, List.length_cons,
        qstr_length, hval] at *
      omega

theorem labelWeight_le_serLabelFile (f : LabelFile) :
    labelWeight f ≤ (serLabelFile f).length := by
  cases f with
  | nil => simp [labelWeight, serLabelFile]
  | cons p rest =>
    have h := labelWeight_le_serLabelMembers 1 (p :: rest)
    show labelWeight (p :: rest) ≤
      ('{' :: '\n' :: (serLabelMembers 1 (p :: rest) ++ '\n' :: ['}'])).length
    simp only [List.length_append, List.length_cons] at *
    omega

/-- `load` after `save`: parsing the serializer's output returns the label
file unchanged. -/
theorem parseLabelFile_stringify (f : LabelFile) :
    parseLabelFile (stringifyLabelFile f) = some f := by
  unfold parseLabelFile
  have hdata : (stringifyLabelFile f).data = serLabelFile f := rfl
  have hlen : (stringifyLabelFile f).length = (serLabelFile f).length := rfl
  rw [hdata, hlen]
  have hw : labelWeight f < (serLabelFile f).length + 1 := by
    have := labelWeight_le_serLabelFile f
    omega
  have h := parseLabelTop_ser f ((serLabelFile f).length + 1) [] hw
  rw [List.append_nil] at h
  rw [h]
  rfl

/-- C7: `upsert` followed by `save`/`load` round-trips the incoming
translations exactly — the loaded file is the upserted file, the upserted
label maps every locale of the incoming map to its incoming value, locales
outside the incoming map keep the label's previous values (the empty map
when the label was absent), and other labels are untouched. -/
theorem c7_upsert_load_roundtrip (file : LabelFile) (labelName : String)
    (translations : Translations)
    (hkeys : (translations.map Prod.fst).Nodup) :
    parseLabelFile (stringifyLabelFile (upsert file labelName translations)) =
      some (upsert file labelName translations) ∧
    ∃ ts, lookupKey (upsert file labelName translations) labelName = some ts ∧
      (∀ l v, lookupKey translations l = some v → lookupKey ts l = some v) ∧
      (∀ l, lookupKey translations l = none →
        lookupKey ts l = lookupKey ((lookupKey file labelName).getD []) l) ∧
      (∀ n, n ≠ labelName →
        lookupKey (upsert file labelName translations) n =
          lookupKey file n) := by
  refine ⟨parseLabelFile_stringify _, ?_⟩
  refine ⟨translations.foldl (fun acc p => setKey acc p.1 p.2)
    ((lookupKey file labelName).getD []), ?_, ?_, ?_, ?_⟩
  · exact lookup_setKey_self file labelName _
  · intro l v h
    exact lookup_foldl_setKey_of_some translations _ l v hkeys h
  · intro l h
    exact lookup_foldl_setKey_of_none translations _ l h
  · intro n hn
    exact lookup_setKey_ne file labelName n _ hn

/-- Witness for C7 at a concrete file, label and translations map. -/
theorem c7_upsert_load_roundtrip_witness :
    parseLabelFile (stringifyLabelFile (upsert [("a", [("en", "x")])] "a"
      [("en", "y"), ("fr", "z")])) =
      some (upsert [("a", [("en", "x")])] "a" [("en", "y"), ("fr", "z")]) ∧
    ∃ ts, lookupKey (upsert [("a", [("en", "x")])] "a"
        [("en", "y"), ("fr", "z")]) "a" = some ts ∧
      (∀ l v, lookupKey [("en", "y"), ("fr", "z")] l = some v →
        lookupKey ts l = some v) ∧
      (∀ l, lookupKey [("en", "y"), ("fr", "z")] l = none →
        lookupKey ts l =
          lookupKey ((lookupKey [("a", [("en", "x")])] "a").getD []) l) ∧
      (∀ n, n ≠ "a" →
        lookupKey (upsert [("a", [("en", "x")])] "a"
          [("en", "y"), ("fr", "z")]) n = lookupKey [("a", [("en", "x")])] n) :=
  c7_upsert_load_roundtrip [("a", [("en", "x")])] "a"
    [("en", "y"), ("fr", "z")] (by decide)

/-- The value group `([a-zA-Z0-9_-]+)` captures at least one character. -/
theorem matchCore_ne_nil (u : List Char) (r : List Char)
    (h : matchCore u = some r) : r ≠ [] := by
  unfold matchCore at h
  split at h
  · by_cases hemp : (u.takeWhile isTokenChar).isEmpty = true
    · rw [if_pos hemp] at h
      exact absurd h (by simp)
    · rw [if_neg hemp] at h
      split at h
      · obtain rfl : u.takeWhile isTokenChar = r := by simpa using h
        simpa [List.isEmpty_iff] using hemp
      · exact absurd h (by simp)
  · exact absurd h (by simp)

theorem matchAfterKey_ne_nil (u : List Char) (r : List Char)
    (h : matchAfterKey u = some r) : r ≠ [] := by
  unfold matchAfterKey at h
  split at h
  · split at h <;> exact matchCore_ne_nil _ _ h
  · exact absurd h (by simp)

theorem matchKeyAt_ne_nil (key u : List Char) (r : List Char)
    (h : matchKeyAt key u = some r) : r ≠ [] := by
  unfold matchKeyAt at h
  split at h
  · exact matchAfterKey_ne_nil _ _ h
  · exact absurd h (by simp)

theorem scanGreedy_ne_nil (key : List Char) (l : List Char) (r : List Char)
    (h : scanGreedy key l = some r) : r ≠ [] := by
  induction l with
  | nil => exact matchKeyAt_ne_nil _ _ _ h
  | cons c cs ih =>
    unfold scanGreedy at h
    rcases ho : scanGreedy key cs with _ | v
    · rw [ho] at h
      simp only [Option.orElse] at h
      exact matchKeyAt_ne_nil _ _ _ h
    · rw [ho] at h
      simp only [Option.orElse] at h
      obtain rfl : v = r := by simpa using h
      exact ih ho

theorem lineMatch_ne_nil (key line : List Char) (r : List Char)
    (h : lineMatch key line = some r) : r ≠ [] := by
  unfold lineMatch at h
  split at h
  · exact absurd h (by simp)
  · split at h
    · exact scanGreedy_ne_nil _ _ _ h
    · exact absurd h (by simp)

/-- Every collected credential candidate is a non-empty string. -/
theorem collectCandidates_ne_empty (key : List Char) (content : String)
    (x : String) (hx : x ∈ collectCandidates key content) : x ≠ "" := by
  unfold collectCandidates at hx
  rw [List.mem_filterMap] at hx
  obtain ⟨l, _, hl⟩ := hx
  rcases hm : lineMatch key l with _ | v
  · rw [hm] at hl
    exact absurd hl (by simp)
  · rw [hm] at hl
    obtain rfl : String.mk v = x := by simpa using hl
    have hv := lineMatch_ne_nil key l v hm
    intro he
    apply hv
    have hdata : (String.mk v).data = ("" : String).data := by rw [he]
    simpa using hdata

theorem pickChoice_mem {α : Type} (n : Nat) (l : List α) (x : α)
    (h : pickChoice n l = some x) : x ∈ l := by
  unfold pickChoice at h
  exact List.getElem?_mem h

/-- Credentials read from an env file are never empty strings: the regex
captures are non-empty runs. -/
theorem tryReadTokenFromEnv_fields (content : String) (tci ici : Nat)
    (pc : PartialConfig) (h : tryReadTokenFromEnv content tci ici = some pc) :
    pc.projectId ≠ "" ∧ pc.accessToken ≠ "" := by
  unfold tryReadTokenFromEnv at h
  split at h
  · exact absurd h (by simp)
  · exact absurd h (by simp)
  case h_3 t i heqt heqi =>
    obtain rfl : (⟨i, t⟩ : PartialConfig) = pc := by simpa using h
    constructor
    · exact collectCandidates_ne_empty projectIdKey content i
        (by rw [heqi]; exact List.mem_singleton.mpr rfl)
    · exact collectCandidates_ne_empty tokenKey content t
        (by rw [heqt]; exact List.mem_singleton.mpr rfl)
  case h_4 =>
    rcases ht : pickChoice tci (collectCandidates tokenKey content) with _ | t
    · rw [ht] at h
      exact absurd h (by simp)
    · rw [ht] at h
      rcases hi : pickChoice ici (collectCandidates projectIdKey content)
        with _ | i
      · rw [hi] at h
        exact absurd h (by simp)
      · rw [hi] at h
        obtain rfl : (⟨i, t⟩ : PartialConfig) = pc := by simpa using h
        exact ⟨collectCandidates_ne_empty projectIdKey content i
            (pickChoice_mem _ _ _ hi),
          collectCandidates_ne_empty tokenKey content t
            (pickChoice_mem _ _ _ ht)⟩

/-- The credential resolver tags its result `.fromEnvFile` only when the
fields came from the regex captures, which are non-empty. -/
theorem tryAcquireProjectConfig_env_fields (I : MainInputs)
    (pc : PartialConfig)
    (h : tryAcquireProjectConfig I = (pc, .fromEnvFile)) :
    pc.projectId ≠ "" ∧ pc.accessToken ≠ "" := by
  unfold tryAcquireProjectConfig at h
  split at h
  · exact absurd (congrArg Prod.snd h) (by simp)
  · split at h
    · exact absurd (congrArg Prod.snd h) (by simp)
    · split at h
      · exact absurd (congrArg Prod.snd h) (by simp)
      · split at h
        · exact absurd (congrArg Prod.snd h) (by simp)
        case h_2 pc2 heq =>
          obtain rfl : pc2 = pc := congrArg Prod.fst h
          exact tryReadTokenFromEnv_fields _ _ _ _ heq

/-- A freshly created label file path `<cwd>/labels.<ext>` is non-empty. -/
theorem created_path_ne (cwd ext : String) : cwd ++ "/labels." ++ ext ≠ "" := by
  intro he
  have hlen : (cwd ++ "/labels." ++ ext).length = ("" : String).length := by
    rw [he]
  rw [String.length_append, String.length_append] at hlen
  have h8 : ("/labels." : String).length = 8 := rfl
  have h0 : ("" : String).length = 0 := rfl
  rw [h8, h0] at hlen
  omega

/-- The path of a resolved label file is never the empty string: an existing
candidate must pass the JavaScript truthiness test and a created file lives
at `<cwd>/labels.<extension>`. -/
theorem labelFilePathWithFallback_path_ne (initialPath : Option String)
    (shouldCreate : Bool) (fmt : SupportedFormat) (cwd : String) (fs : Fs)
    (path : String) (isNew : Bool) (fs2 : Fs)
    (h : labelFilePathWithFallback initialPath shouldCreate fmt cwd fs =
      .ok path isNew fs2) : path ≠ "" := by
  have hfb : labelFileFallback shouldCreate fmt cwd fs = .ok path isNew fs2 →
      path ≠ "" := by
    intro hf
    unfold labelFileFallback at hf
    split at hf
    · exact absurd hf (by simp)
    · rw [LabelFileResult.ok.injEq] at hf
      obtain ⟨rfl, -, -⟩ := hf
      exact created_path_ne _ _
  unfold labelFilePathWithFallback at h
  split at h
  case h_1 p =>
    split at h
    case isTrue hp =>
      obtain rfl : p = path := by injection h
      exact hp
    case isFalse => exact hfb h
  case h_2 => exact hfb h

/-- C1 (amended): whenever `main` reaches the Action Dispatcher, the
assembled config's `localFilePath` is non-empty, and when the credentials
were resolved from an environment file so are `projectId` and `accessToken`;
credentials from the interactive fallback prompt may be empty (the prompt
accepts empty answers and `main` never re-checks them). -/
theorem c1_dispatch_config_shape (I : MainInputs) (fs : Fs)
    (config : ProjectConfig) (source : CredSource) (isNew : Bool)
    (h : mainResolve I fs = .dispatched config source isNew) :
    config.localFilePath ≠ "" ∧
    (source = .fromEnvFile →
      config.projectId ≠ "" ∧ config.accessToken ≠ "") := by
  unfold mainResolve at h
  split at h
  · exact absurd h (by simp)
  case h_2 path isNew2 fs2 heq =>
    rw [MainOutcome.dispatched.injEq] at h
    obtain ⟨hcfg, hsrc, _⟩ := h
    constructor
    · rw [← hcfg]
      exact labelFilePathWithFallback_path_ne _ _ _ _ _ _ _ _ heq
    · intro henv
      have henv2 : tryAcquireProjectConfig I =
          ((tryAcquireProjectConfig I).1, .fromEnvFile) :=
        Prod.ext rfl (hsrc.trans henv)
      have hf := tryAcquireProjectConfig_env_fields I
        (tryAcquireProjectConfig I).1 henv2
      rw [← hcfg]
      exact hf

/-- Witness for C1 on the concrete env-file run: the dispatcher is reached
with `⟨p1, abc, /w/labels.json⟩` from the env file, and all fields are
non-empty. -/
theorem c1_dispatch_config_shape_witness :
    (ProjectConfig.mk "p1" "abc" "/w/labels.json").localFilePath ≠ "" ∧
    (CredSource.fromEnvFile = CredSource.fromEnvFile →
      (ProjectConfig.mk "p1" "abc" "/w/labels.json").projectId ≠ "" ∧
      (ProjectConfig.mk "p1" "abc" "/w/labels.json").accessToken ≠ "") :=
  c1_dispatch_config_shape envCredRun (fun _ => none)
    ⟨"p1", "abc", "/w/labels.json"⟩ .fromEnvFile false (by decide)

end Labeleer
